import Mathlib

/-!
Verification of the media encoding/export pipeline of the VoxGem Studio
front end (src/utils/audioUtils.ts, src/utils/toast.ts, src/App.tsx).

Shallow embedding conventions:
* a JS `Uint8Array` / binary buffer is a `List Nat` of byte values;
* a JS string is a `List Char` (one entry per UTF-16 code unit; every
  string handled by this slice is plain ASCII);
* `DataView.setUint16`/`setUint32` with `littleEndian = true` are modelled
  by `le16`/`le32`, which write the value modulo 2^16 / 2^32 as
  little-endian byte lists, matching the ECMAScript ToUint16/ToUint32
  coercions;
* fallible operations return `Option`/`Except`.
-/

namespace VoxGem

/-- ASCII code units of a Lean string literal; models `charCodeAt` over an
ASCII string, as used by `writeString` in src/utils/audioUtils.ts. -/
def asciiBytes (s : String) : List Nat :=
  s.data.map (fun c => c.toNat)

/-- Little-endian 2-byte encoding of `DataView.setUint16 (littleEndian)`:
the value is written modulo 2^16. -/
def le16 (v : Nat) : List Nat :=
  [v % 256, v / 256 % 256]

/-- Little-endian 4-byte encoding of `DataView.setUint32 (littleEndian)`:
the value is written modulo 2^32. -/
def le32 (v : Nat) : List Nat :=
  [v % 256, v / 256 % 256, v / 65536 % 256, v / 16777216 % 256]

/-- Embedding of `pcmToWav` (src/utils/audioUtils.ts, lines 12-40): the
44-byte RIFF/WAVE header written field by field at offsets
0,4,8,12,16,20,22,24,28,32,34,36,40 followed by the PCM payload copied at
offset 44.  The `DataView` writes at consecutive offsets are modelled by
concatenation in offset order. -/
def pcmToWav (pcmData : List Nat) (sampleRate : Nat) : List Nat :=
  let numChannels := 1
  let bitsPerSample := 16
  let byteRate := sampleRate * numChannels * bitsPerSample / 8
  let blockAlign := numChannels * bitsPerSample / 8
  let dataSize := pcmData.length
  asciiBytes "RIFF" ++
  le32 (36 + dataSize) ++
  asciiBytes "WAVE" ++
  asciiBytes "fmt " ++
  le32 16 ++
  le16 1 ++
  le16 numChannels ++
  le32 sampleRate ++
  le32 byteRate ++
  le16 blockAlign ++
  le16 bitsPerSample ++
  asciiBytes "data" ++
  le32 dataSize ++
  pcmData

/-- Read two bytes little-endian at offset `i` (out-of-range bytes read 0). -/
def readLE16 (l : List Nat) (i : Nat) : Nat :=
  l.getD i 0 + 256 * l.getD (i + 1) 0

/-- Read four bytes little-endian at offset `i` (out-of-range bytes read 0). -/
def readLE32 (l : List Nat) (i : Nat) : Nat :=
  l.getD i 0 + 256 * l.getD (i + 1) 0 + 65536 * l.getD (i + 2) 0 +
    16777216 * l.getD (i + 3) 0

/-- The header/payload shape asserted by the spec for `pcmToWav pcm r`:
total length 44 + n, RIFF/WAVE/fmt/data magic strings, chunk size 36 + n,
fmt sub-chunk of size 16 declaring PCM (1), mono (1), sample rate r,
byte rate r * 2, block align 2, 16 bits per sample, data size n, and the
PCM payload copied verbatim from offset 44. -/
def wavClaim (pcm : List Nat) (r : Nat) : Prop :=
  (pcmToWav pcm r).length = 44 + pcm.length ∧
  (pcmToWav pcm r).take 4 = asciiBytes "RIFF" ∧
  readLE32 (pcmToWav pcm r) 4 = 36 + pcm.length ∧
  ((pcmToWav pcm r).drop 8).take 4 = asciiBytes "WAVE" ∧
  ((pcmToWav pcm r).drop 12).take 4 = asciiBytes "fmt " ∧
  readLE32 (pcmToWav pcm r) 16 = 16 ∧
  readLE16 (pcmToWav pcm r) 20 = 1 ∧
  readLE16 (pcmToWav pcm r) 22 = 1 ∧
  readLE32 (pcmToWav pcm r) 24 = r ∧
  readLE32 (pcmToWav pcm r) 28 = r * 2 ∧
  readLE16 (pcmToWav pcm r) 32 = 2 ∧
  readLE16 (pcmToWav pcm r) 34 = 16 ∧
  ((pcmToWav pcm r).drop 36).take 4 = asciiBytes "data" ∧
  readLE32 (pcmToWav pcm r) 40 = pcm.length ∧
  (pcmToWav pcm r).drop 44 = pcm

instance wavClaimDecidable (pcm : List Nat) (r : Nat) : Decidable (wavClaim pcm r) := by
  unfold wavClaim
  infer_instance

/-- The WAV output written as an explicit 44-byte header cons-chain in
front of the payload. -/
theorem pcmToWav_bytes (pcm : List Nat) (r : Nat) :
    pcmToWav pcm r =
      82 :: 73 :: 70 :: 70 ::
      (36 + pcm.length) % 256 :: (36 + pcm.length) / 256 % 256 ::
        (36 + pcm.length) / 65536 % 256 :: (36 + pcm.length) / 16777216 % 256 ::
      87 :: 65 :: 86 :: 69 ::
      102 :: 109 :: 116 :: 32 ::
      16 :: 0 :: 0 :: 0 ::
      1 :: 0 ::
      1 :: 0 ::
      r % 256 :: r / 256 % 256 :: r / 65536 % 256 :: r / 16777216 % 256 ::
      r * 1 * 16 / 8 % 256 :: r * 1 * 16 / 8 / 256 % 256 ::
        r * 1 * 16 / 8 / 65536 % 256 :: r * 1 * 16 / 8 / 16777216 % 256 ::
      2 :: 0 ::
      16 :: 0 ::
      100 :: 97 :: 116 :: 97 ::
      pcm.length % 256 :: pcm.length / 256 % 256 :: pcm.length / 65536 % 256 ::
        pcm.length / 16777216 % 256 ::
      pcm := rfl

theorem readLE32_recompose (v : Nat) (h : v < 4294967296) :
    v % 256 + 256 * (v / 256 % 256) + 65536 * (v / 65536 % 256) +
      16777216 * (v / 16777216 % 256) = v := by
  omega

/-- C1 (amended): for every PCM byte list and positive sample rate whose
derived header fields fit their 32-bit slots (`36 + n < 2^32` and
`r * 2 < 2^32`), `pcmToWav` produces `44 + n` bytes whose header declares
exactly the sizes, format code, channel count, rate, byte rate, block
align and bit depth the spec states, with the PCM payload copied verbatim
at offset 44. -/
theorem pcmToWav_header_spec (pcm : List Nat) (r : Nat) (hr : 0 < r)
    (hbr : r * 2 < 4294967296) (hcs : 36 + pcm.length < 4294967296) :
    wavClaim pcm r := by
  have hb := pcmToWav_bytes pcm r
  refine ⟨?_, ?_, ?_, ?_, ?_, ?_, ?_, ?_, ?_, ?_, ?_, ?_, ?_, ?_, ?_⟩
  · rw [hb]; simp; omega
  · rw [hb]; rfl
  · have : readLE32 (pcmToWav pcm r) 4 =
        (36 + pcm.length) % 256 + 256 * ((36 + pcm.length) / 256 % 256) +
          65536 * ((36 + pcm.length) / 65536 % 256) +
          16777216 * ((36 + pcm.length) / 16777216 % 256) := by
      rw [hb]; rfl
    rw [this, readLE32_recompose _ hcs]
  · rw [hb]; rfl
  · rw [hb]; rfl
  · rw [hb]; rfl
  · rw [hb]; rfl
  · rw [hb]; rfl
  · have : readLE32 (pcmToWav pcm r) 24 =
        r % 256 + 256 * (r / 256 % 256) + 65536 * (r / 65536 % 256) +
          16777216 * (r / 16777216 % 256) := by
      rw [hb]; rfl
    rw [this, readLE32_recompose _ (by omega)]
  · have : readLE32 (pcmToWav pcm r) 28 =
        r * 1 * 16 / 8 % 256 + 256 * (r * 1 * 16 / 8 / 256 % 256) +
          65536 * (r * 1 * 16 / 8 / 65536 % 256) +
          16777216 * (r * 1 * 16 / 8 / 16777216 % 256) := by
      rw [hb]; rfl
    rw [this]
    have hq : r * 1 * 16 / 8 = r * 2 := by omega
    rw [hq, readLE32_recompose _ hbr]
  · rw [hb]; rfl
  · rw [hb]; rfl
  · rw [hb]; rfl
  · have : readLE32 (pcmToWav pcm r) 40 =
        pcm.length % 256 + 256 * (pcm.length / 256 % 256) +
          65536 * (pcm.length / 65536 % 256) +
          16777216 * (pcm.length / 16777216 % 256) := by
      rw [hb]; rfl
    rw [this, readLE32_recompose _ (by omega)]
  · rw [hb]; rfl

/-- Witness for C1: the amended header theorem applied at the spec's
end-to-end style input, a 2-byte PCM payload at 24000 Hz. -/
theorem pcmToWav_header_spec_witness :
    0 < 24000 ∧ 24000 * 2 < 4294967296 ∧ 36 + ([7, 8] : List Nat).length < 4294967296 ∧
      wavClaim [7, 8] 24000 :=
  ⟨by decide, by decide, by decide,
    pcmToWav_header_spec [7, 8] 24000 (by decide) (by decide) (by decide)⟩

/-- Counterexample for C1 as stated: at sample rate `2^31` the byte-rate
field wraps modulo 2^32 and the header declares byte rate 0, not
`r * 2 = 2^32`, so the unrestricted claim fails. -/
theorem pcmToWav_claim_cex : ¬ wavClaim [] 2147483648 := by
  intro h
  have h10 := h.2.2.2.2.2.2.2.2.2.1
  have : readLE32 (pcmToWav [] 2147483648) 28 = 0 := by decide
  omega

/-- C9: `pcmToWav` is deterministic — equal PCM bytes and equal sample
rates give byte-identical WAV buffers (the embedding is a pure function of
exactly these two inputs, mirroring the source, which reads no other
state). -/
theorem pcmToWav_deterministic (pcm1 pcm2 : List Nat) (r1 r2 : Nat)
    (hp : pcm1 = pcm2) (hr : r1 = r2) : pcmToWav pcm1 r1 = pcmToWav pcm2 r2 := by
  rw [hp, hr]

/-- Witness for C9 at a concrete input. -/
theorem pcmToWav_deterministic_witness :
    pcmToWav [1, 2] 8000 = pcmToWav [1, 2] 8000 :=
  pcmToWav_deterministic [1, 2] [1, 2] 8000 8000 rfl rfl

/-- ASCII whitespace in the sense of the WHATWG infra standard (TAB, LF,
FF, CR, SPACE), which `atob` removes before decoding. -/
def isAsciiWs (c : Char) : Bool :=
  c.toNat = 9 || c.toNat = 10 || c.toNat = 12 || c.toNat = 13 || c.toNat = 32

/-- Value of a character in the standard base64 alphabet
(`A`-`Z`, `a`-`z`, `0`-`9`, `+`, `/`), `none` outside it. -/
def charVal (c : Char) : Option Nat :=
  if 65 ≤ c.toNat ∧ c.toNat ≤ 90 then some (c.toNat - 65)
  else if 97 ≤ c.toNat ∧ c.toNat ≤ 122 then some (c.toNat - 71)
  else if 48 ≤ c.toNat ∧ c.toNat ≤ 57 then some (c.toNat + 4)
  else if c = '+' then some 62
  else if c = '/' then some 63
  else none

/-- Step 2 of WHATWG forgiving-base64: when the length is a multiple of 4,
up to two trailing padding characters are removed. -/
def stripTrailPad (t : List Char) : List Char :=
  if t.getLast? = some '=' then
    if t.dropLast.getLast? = some '=' then t.dropLast.dropLast else t.dropLast
  else t

/-- Turn a list of sextet values into bytes, 4 sextets to 3 bytes, with a
final group of 2 sextets giving 1 byte and 3 sextets giving 2 bytes
(discarding the low filler bits), per forgiving-base64 decode. -/
def sextetsToBytes : List Nat → List Nat
  | a :: b :: c :: d :: rest =>
      (a * 4 + b / 16) :: (b % 16 * 16 + c / 4) :: (c % 4 * 64 + d) ::
        sextetsToBytes rest
  | [a, b] => [a * 4 + b / 16]
  | [a, b, c] => [a * 4 + b / 16, b % 16 * 16 + c / 4]
  | _ => []

/-- Map `charVal` over a character list, failing when any character is
outside the base64 alphabet. -/
def mapCharVals : List Char → Option (List Nat)
  | [] => some []
  | c :: cs =>
    match charVal c, mapCharVals cs with
    | some v, some vs => some (v :: vs)
    | _, _ => none

/-- The input as preprocessed by `atob`: ASCII whitespace removed and,
when the length is then a multiple of 4, up to two trailing `=` removed. -/
def b64Stripped (s : List Char) : List Char :=
  if (s.filter (fun c => !(isAsciiWs c))).length % 4 = 0 then
    stripTrailPad (s.filter (fun c => !(isAsciiWs c)))
  else s.filter (fun c => !(isAsciiWs c))

/-- Embedding of `decodeBase64` (src/utils/audioUtils.ts, lines 2-10): the
function calls the host `atob` and then reads the code unit of every
position of the returned binary string into a byte array.  `atob` is the
WHATWG forgiving-base64 decoder: remove ASCII whitespace; when the length
is a multiple of 4 remove up to two trailing `=`; fail when the length is
congruent 1 mod 4 or a character is outside the base64 alphabet; otherwise
decode sextets to bytes.  The byte-copy loop of the source is the identity
on this byte list. -/
def decodeBase64 (s : List Char) : Option (List Nat) :=
  if (b64Stripped s).length % 4 = 1 then none
  else
    match mapCharVals (b64Stripped s) with
    | none => none
    | some sx => some (sextetsToBytes sx)

/-- The forgiving-base64 success condition: after preprocessing, the
length is not congruent 1 mod 4 and every character is in the base64
alphabet. -/
def goodForgiving (s : List Char) : Prop :=
  (b64Stripped s).length % 4 ≠ 1 ∧ ∀ c ∈ b64Stripped s, (charVal c).isSome

instance goodForgivingDecidable (s : List Char) : Decidable (goodForgiving s) := by
  unfold goodForgiving
  infer_instance

theorem mapCharVals_eq_none (l : List Char) :
    mapCharVals l = none ↔ ∃ c ∈ l, charVal c = none := by
  induction l with
  | nil => simp [mapCharVals]
  | cons c cs ih =>
    simp only [mapCharVals]
    cases h : charVal c with
    | none => simp [h]
    | some v =>
      cases h2 : mapCharVals cs with
      | none =>
        simp only [h2] at ih
        simp only [true_iff] at ih
        rcases ih with ⟨d, hd, hdn⟩
        simp only [true_iff]
        exact ⟨d, by simp [hd], hdn⟩
      | some vs =>
        simp only [h2] at ih
        constructor
        · intro hc; simp at hc
        · rintro ⟨d, hd, hdn⟩
          rcases List.mem_cons.mp hd with rfl | hd
          · rw [h] at hdn; exact absurd hdn (by simp)
          · exact absurd hdn (by
              intro hn
              have := ih.mpr ⟨d, hd, hn⟩
              simp at this)

/-- C5 (amended): `decodeBase64` fails exactly when the input is not
forgiving-base64: after removing ASCII whitespace and (when the length is
a multiple of 4) up to two trailing padding characters, the remainder has
length congruent 1 mod 4 or contains a character outside the base64
alphabet.  In particular whitespace never causes failure and some
alphabet-only inputs (length 1 mod 4) do fail. -/
theorem decodeBase64_fails_iff (s : List Char) :
    decodeBase64 s = none ↔ ¬ goodForgiving s := by
  unfold decodeBase64 goodForgiving
  by_cases h1 : (b64Stripped s).length % 4 = 1
  · simp [h1]
  · rw [if_neg h1]
    cases hm : mapCharVals (b64Stripped s) with
    | none =>
      rcases (mapCharVals_eq_none _).mp hm with ⟨c, hc, hcn⟩
      simp only [true_iff]
      intro hgood
      have := hgood.2 c hc
      rw [hcn] at this
      simp at this
    | some sx =>
      simp only [reduceCtorEq, false_iff, not_not]
      refine ⟨h1, fun c hc => ?_⟩
      by_contra hnone
      have hcn : charVal c = none := by
        cases hcv : charVal c
        · rfl
        · rw [hcv] at hnone; simp at hnone
      exact absurd hm (by rw [(mapCharVals_eq_none _).mpr ⟨c, hc, hcn⟩]; simp)

/-- Counterexample for C5 as stated: the input `"A"` consists only of
base64-alphabet characters (no padding needed either), yet `decodeBase64`
fails on it, because its whitespace-stripped length is congruent 1 mod 4 —
so failure is not equivalent to containing a character outside the
alphabet-plus-padding set. -/
theorem decodeBase64_claim_cex :
    ¬ ((decodeBase64 ['A'] = none) ↔
        ∃ c ∈ (['A'] : List Char), (charVal c).isNone ∧ c ≠ '=') := by
  decide

/-- The standard base64 alphabet in index order. -/
def b64Chars : List Char :=
  "ABCDEFGHIJKLMNOPQRSTUVWXYZabcdefghijklmnopqrstuvwxyz0123456789+/".data

/-- Character for a sextet value. -/
def sextetToChar (k : Nat) : Char :=
  b64Chars.getD k 'A'

/-- Embedding of `encode` (src/components/ScriptAssistant.tsx, lines
21-28), which base64-encodes binary payloads before sending them across
the text API boundary (used at line 154 for PCM audio chunks).  The source
loop builds a binary string whose code units are the input bytes
(`String.fromCharCode(bytes[i])` — the identity on this byte-list
representation) and then calls the host `btoa` on it.  `btoa` (WHATWG)
fails only on code units above 255, impossible for `Uint8Array` input,
and otherwise emits standard RFC 4648 padded base64: each 3-byte group as
4 alphabet characters, a final 1-byte group as 2 characters (low filler
bits zero) plus `==`, a final 2-byte group as 3 characters plus `=`; no
URL-safe variant, padding always present. -/
def encode : List Nat → List Char
  | [] => []
  | [a] => [sextetToChar (a / 4), sextetToChar (a % 4 * 16), '=', '=']
  | [a, b] => [sextetToChar (a / 4), sextetToChar (a % 4 * 16 + b / 16),
      sextetToChar (b % 16 * 4), '=']
  | a :: b :: c :: rest =>
      sextetToChar (a / 4) :: sextetToChar (a % 4 * 16 + b / 16) ::
      sextetToChar (b % 16 * 4 + c / 64) :: sextetToChar (c % 64) ::
      encode rest

/-- Sextet values of the unpadded encoding of a byte list. -/
def encSextets : List Nat → List Nat
  | [] => []
  | [a] => [a / 4, a % 4 * 16]
  | [a, b] => [a / 4, a % 4 * 16 + b / 16, b % 16 * 4]
  | a :: b :: c :: rest =>
      (a / 4) :: (a % 4 * 16 + b / 16) :: (b % 16 * 4 + c / 64) :: (c % 64) ::
      encSextets rest

/-- Padding suffix of the encoding of a byte list. -/
def padOf : List Nat → List Char
  | [] => []
  | [_] => ['=', '=']
  | [_, _] => ['=']
  | _ :: _ :: _ :: rest => padOf rest

/-- Induction on a list consumed three elements at a time. -/
theorem chunk3Induction {P : List Nat → Prop} (h0 : P []) (h1 : ∀ a, P [a])
    (h2 : ∀ a b, P [a, b])
    (h3 : ∀ a b c rest, P rest → P (a :: b :: c :: rest)) :
    ∀ l, P l
  | [] => h0
  | [a] => h1 a
  | [a, b] => h2 a b
  | a :: b :: c :: rest => h3 a b c rest (chunk3Induction h0 h1 h2 h3 rest)

theorem encode_eq (l : List Nat) :
    encode l = (encSextets l).map sextetToChar ++ padOf l := by
  induction l using chunk3Induction with
  | h0 => rfl
  | h1 a => rfl
  | h2 a b => rfl
  | h3 a b c rest ih => simp [encode, encSextets, padOf, ih]

theorem encSextets_lt (l : List Nat) (h : ∀ x ∈ l, x < 256) :
    ∀ k ∈ encSextets l, k < 64 := by
  induction l using chunk3Induction with
  | h0 => simp [encSextets]
  | h1 a =>
    have := h a (by simp)
    simp only [encSextets, List.mem_cons, List.not_mem_nil, or_false]
    rintro k (rfl | rfl) <;> omega
  | h2 a b =>
    have ha := h a (by simp)
    have hb := h b (by simp)
    simp only [encSextets, List.mem_cons, List.not_mem_nil, or_false]
    rintro k (rfl | rfl | rfl) <;> omega
  | h3 a b c rest ih =>
    have ha := h a (by simp)
    have hb := h b (by simp)
    have hc := h c (by simp)
    simp only [encSextets, List.mem_cons]
    rintro k (rfl | rfl | rfl | rfl | hk)
    · omega
    · omega
    · omega
    · omega
    · exact ih (fun x hx => h x (by simp [hx])) k hk

theorem charVal_sextetToChar : ∀ k, k < 64 → charVal (sextetToChar k) = some k := by
  decide

theorem sextetToChar_not_ws : ∀ k, k < 64 → isAsciiWs (sextetToChar k) = false := by
  decide

theorem sextetToChar_ne_pad : ∀ k, k < 64 → sextetToChar k ≠ '=' := by
  decide

theorem mapCharVals_sextets (sx : List Nat) (h : ∀ k ∈ sx, k < 64) :
    mapCharVals (sx.map sextetToChar) = some sx := by
  induction sx with
  | nil => rfl
  | cons k ks ih =>
    simp only [List.map_cons, mapCharVals]
    rw [charVal_sextetToChar k (h k (by simp)), ih (fun x hx => h x (by simp [hx]))]

theorem padOf_mem (l : List Nat) : ∀ c ∈ padOf l, c = '=' := by
  induction l using chunk3Induction with
  | h0 => simp [padOf]
  | h1 a => simp [padOf]
  | h2 a b => simp [padOf]
  | h3 a b c rest ih => simpa only [padOf] using ih

theorem encode_no_ws (l : List Nat) (h : ∀ x ∈ l, x < 256) :
    ∀ c ∈ encode l, isAsciiWs c = false := by
  intro c hc
  rw [encode_eq] at hc
  rcases List.mem_append.mp hc with hm | hp
  · rcases List.mem_map.mp hm with ⟨k, hk, rfl⟩
    exact sextetToChar_not_ws k (encSextets_lt l h k hk)
  · rw [padOf_mem l c hp]
    decide

theorem encode_len (l : List Nat) : (encode l).length % 4 = 0 := by
  induction l using chunk3Induction with
  | h0 => rfl
  | h1 a => simp [encode]
  | h2 a b => simp [encode]
  | h3 a b c rest ih => simp only [encode, List.length_cons]; omega

theorem encSextets_len (l : List Nat) : (encSextets l).length % 4 ≠ 1 := by
  induction l using chunk3Induction with
  | h0 => simp [encSextets]
  | h1 a => simp [encSextets]
  | h2 a b => simp [encSextets]
  | h3 a b c rest ih => simp only [encSextets, List.length_cons]; omega

theorem padOf_cases (l : List Nat) :
    padOf l = [] ∨ padOf l = ['='] ∨ padOf l = ['=', '='] := by
  induction l using chunk3Induction with
  | h0 => left; rfl
  | h1 a => right; right; rfl
  | h2 a b => right; left; rfl
  | h3 a b c rest ih => exact ih

theorem stripTrailPad_no_pad (m : List Char) (h : m.getLast? ≠ some '=') :
    stripTrailPad m = m := by
  unfold stripTrailPad
  rw [if_neg h]

theorem stripTrailPad_one (m : List Char) (h : m.getLast? ≠ some '=') :
    stripTrailPad (m ++ ['=']) = m := by
  unfold stripTrailPad
  rw [show (m ++ ['='] : List Char).getLast? = some '=' by simp,
    if_pos rfl, show (m ++ ['='] : List Char).dropLast = m by simp,
    if_neg h]

theorem stripTrailPad_two (m : List Char) :
    stripTrailPad (m ++ ['=', '=']) = m := by
  unfold stripTrailPad
  rw [show (m ++ ['=', '='] : List Char).getLast? = some '=' by simp,
    if_pos rfl,
    show (m ++ ['=', '='] : List Char).dropLast = m ++ ['='] by
      simp [List.dropLast_append_cons],
    show (m ++ ['='] : List Char).getLast? = some '=' by simp,
    if_pos rfl,
    show (m ++ ['='] : List Char).dropLast = m by simp]

theorem mapPart_no_pad (l : List Nat) (h : ∀ x ∈ l, x < 256) :
    ((encSextets l).map sextetToChar).getLast? ≠ some '=' := by
  intro hl
  have hmem : '=' ∈ (encSextets l).map sextetToChar := by
    rcases List.mem_getLast?_eq_getLast (Option.mem_def.mpr hl) with ⟨hne, heq⟩
    rw [heq]
    exact List.getLast_mem hne
  rcases List.mem_map.mp hmem with ⟨k, hk, hke⟩
  exact sextetToChar_ne_pad k (encSextets_lt l h k hk) hke

theorem sextetsToBytes_enc (l : List Nat) (h : ∀ x ∈ l, x < 256) :
    sextetsToBytes (encSextets l) = l := by
  induction l using chunk3Induction with
  | h0 => rfl
  | h1 a =>
    have ha := h a (by simp)
    simp only [encSextets, sextetsToBytes, List.cons.injEq, and_true]
    omega
  | h2 a b =>
    have ha := h a (by simp)
    have hb := h b (by simp)
    simp only [encSextets, sextetsToBytes, List.cons.injEq, and_true]
    constructor <;> omega
  | h3 a b c rest ih =>
    have ha := h a (by simp)
    have hb := h b (by simp)
    have hc := h c (by simp)
    simp only [encSextets, sextetsToBytes, List.cons.injEq]
    refine ⟨by omega, by omega, by omega, ih (fun x hx => h x (by simp [hx]))⟩

/-- The `atob` preprocessing leaves exactly the unpadded character
encoding of the input bytes. -/
theorem b64Stripped_encode (bytes : List Nat) (h : ∀ x ∈ bytes, x < 256) :
    b64Stripped (encode bytes) = (encSextets bytes).map sextetToChar := by
  unfold b64Stripped
  rw [List.filter_eq_self.mpr (by
    intro c hc
    rw [encode_no_ws bytes h c hc]
    rfl)]
  rw [if_pos (encode_len bytes)]
  rw [encode_eq]
  rcases padOf_cases bytes with hp | hp | hp <;> rw [hp]
  · rw [List.append_nil]
    exact stripTrailPad_no_pad _ (mapPart_no_pad bytes h)
  · exact stripTrailPad_one _ (mapPart_no_pad bytes h)
  · exact stripTrailPad_two _

/-- C8: decoding the standard padded base64 encoding produced by `encode`
(src/components/ScriptAssistant.tsx) of any byte sequence, the empty one
included, with `decodeBase64` returns exactly the original bytes. -/
theorem decodeBase64_encode (bytes : List Nat) (h : ∀ x ∈ bytes, x < 256) :
    decodeBase64 (encode bytes) = some bytes := by
  unfold decodeBase64
  rw [b64Stripped_encode bytes h]
  rw [if_neg (by
    rw [List.length_map]
    exact encSextets_len bytes)]
  rw [mapCharVals_sextets _ (encSextets_lt bytes h)]
  show some (sextetsToBytes (encSextets bytes)) = some bytes
  rw [sextetsToBytes_enc bytes h]

/-- Witness for C8: round trip at the concrete byte list `[0, 255, 16, 7]`. -/
theorem decodeBase64_encode_witness :
    decodeBase64 (encode [0, 255, 16, 7]) = some [0, 255, 16, 7] :=
  decodeBase64_encode [0, 255, 16, 7] (by decide)

/-- JS `text.split(' ')` over code units: split on every single space;
adjacent, leading and trailing separators yield empty items; the empty
string yields one empty item.  Used by the still-frame renderer in
`audioBlobToVideo` (src/utils/audioUtils.ts, line 88). -/
def splitChars : List Char → List (List Char)
  | [] => [[]]
  | c :: cs =>
    if c = ' ' then [] :: splitChars cs
    else
      match splitChars cs with
      | [] => [[c]]
      | w :: ws => (c :: w) :: ws

theorem splitChars_ne_nil (l : List Char) : splitChars l ≠ [] := by
  cases l with
  | nil => simp [splitChars]
  | cons c cs =>
    simp only [splitChars]
    by_cases hc : c = ' '
    · simp [hc]
    · rw [if_neg hc]
      cases splitChars cs <;> simp

/-- maxWidth = width - 120 with width = 1280 (src/utils/audioUtils.ts). -/
def wrapMaxWidth : Nat := 1280 - 120

/-- lineHeight = 45. -/
def wrapLineHeight : Nat := 45

/-- Initial y = height / 2 - 50 with height = 720. -/
def wrapYStart : Nat := 720 / 2 - 50

/-- The loop breaks when y > height - 100. -/
def wrapYLimit : Nat := 720 - 100

/-- Embedding of the body-text word-wrap loop of `audioBlobToVideo`
(src/utils/audioUtils.ts, lines 90-107).  The output collects, in order,
every `fillText` call for body text together with its y position: a flush
inside the loop when the test line overflows and the word index is
positive, and the unconditional draw of the residual line after the loop
(also after an early break when y passes the limit).  `measure` stands for
the canvas `measureText` width function. -/
def wrapLoop (measure : List Char → Nat) :
    List (List Char) → Nat → List Char → Nat → List (List Char × Nat)
  | [], _, line, y => [(line, y)]
  | w :: ws, n, line, y =>
    if wrapMaxWidth < measure (line ++ w ++ [' ']) ∧ 0 < n then
      if wrapYLimit < y + wrapLineHeight then
        [(line, y), (w ++ [' '], y + wrapLineHeight)]
      else
        (line, y) :: wrapLoop measure ws (n + 1) (w ++ [' ']) (y + wrapLineHeight)
    else
      if wrapYLimit < y then
        [(line ++ w ++ [' '], y)]
      else
        wrapLoop measure ws (n + 1) (line ++ w ++ [' ']) y

/-- The full body-text render for an input text: split into words, then
run the wrap loop from an empty line at the starting y position. -/
def wrapText (measure : List Char → Nat) (text : List Char) :
    List (List Char × Nat) :=
  wrapLoop measure (splitChars text) 0 [] wrapYStart

theorem wrapLoop_invariantAux (measure : List Char → Nat)
    (allW : List (List Char)) :
    ∀ ws n line y, 0 < n → (∀ w ∈ ws, w ∈ allW) →
      (measure line ≤ wrapMaxWidth ∨ ∃ w ∈ allW, line = w ++ [' ']) →
      y ≤ wrapYLimit →
      ∀ p ∈ wrapLoop measure ws n line y,
        (measure p.1 ≤ wrapMaxWidth ∨ ∃ w ∈ allW, p.1 = w ++ [' ']) ∧
          p.2 ≤ wrapYLimit + wrapLineHeight := by
  intro ws
  induction ws with
  | nil =>
    intro n line y _ _ hline hy p hp
    simp only [wrapLoop, List.mem_singleton] at hp
    rw [hp]
    exact ⟨hline, by omega⟩
  | cons w ws ih =>
    intro n line y hn hws hline hy p hp
    simp only [wrapLoop] at hp
    by_cases hc : wrapMaxWidth < measure (line ++ w ++ [' ']) ∧ 0 < n
    · rw [if_pos hc] at hp
      by_cases hb : wrapYLimit < y + wrapLineHeight
      · rw [if_pos hb] at hp
        simp only [List.mem_cons, List.not_mem_nil, or_false] at hp
        rcases hp with rfl | rfl
        · exact ⟨hline, by omega⟩
        · exact ⟨Or.inr ⟨w, hws w (by simp), rfl⟩, by omega⟩
      · rw [if_neg hb] at hp
        rcases List.mem_cons.mp hp with hp | hp
        · rw [hp]; exact ⟨hline, by omega⟩
        · exact ih (n + 1) (w ++ [' ']) (y + wrapLineHeight) (by omega)
            (fun x hx => hws x (by simp [hx]))
            (Or.inr ⟨w, hws w (by simp), rfl⟩) (by omega) p hp
    · rw [if_neg hc] at hp
      have hsmall : measure (line ++ w ++ [' ']) ≤ wrapMaxWidth := by
        rcases not_and_or.mp hc with h | h
        · omega
        · omega
      by_cases hb : wrapYLimit < y
      · omega
      · rw [if_neg hb] at hp
        exact ih (n + 1) (line ++ w ++ [' ']) y (by omega)
          (fun x hx => hws x (by simp [hx])) (Or.inl hsmall) hy p hp

/-- C3 (amended): every line the word-wrap emits either has measured width
at most the configured maximum or consists of a single input word followed
by a space (the first word of the text, or a word placed alone on a fresh
line after a flush, is drawn even when it alone overflows the maximum);
and every line is drawn at a vertical position at most one line height
past the reserved body limit (the residual line is still drawn once after
the early break, at most `lineHeight` beyond the limit; all other lines
stay within the limit). -/
theorem wrapText_lines (measure : List Char → Nat) (text : List Char)
    (p : List Char × Nat) (hp : p ∈ wrapText measure text) :
    (measure p.1 ≤ wrapMaxWidth ∨ ∃ w ∈ splitChars text, p.1 = w ++ [' ']) ∧
      p.2 ≤ wrapYLimit + wrapLineHeight := by
  obtain ⟨w0, ws0, hsplit⟩ : ∃ w0 ws0, splitChars text = w0 :: ws0 := by
    cases h : splitChars text with
    | nil => exact absurd h (splitChars_ne_nil text)
    | cons a b => exact ⟨a, b, rfl⟩
  unfold wrapText at hp
  rw [hsplit] at hp
  simp only [wrapLoop] at hp
  rw [if_neg (by simp)] at hp
  rw [if_neg (by decide)] at hp
  rw [List.nil_append] at hp
  rw [hsplit]
  exact wrapLoop_invariantAux measure (w0 :: ws0) ws0 1 (w0 ++ [' '])
    wrapYStart (by omega) (fun x hx => by simp [hx])
    (Or.inr ⟨w0, by simp, rfl⟩) (by decide) p hp

/-- Witness for C3 (amended) at a concrete measure, text and emitted
line. -/
theorem wrapText_lines_witness :
    ((fun _ => (0 : Nat)) ((['a', ' '] : List Char)) ≤ wrapMaxWidth ∨
      ∃ w ∈ splitChars ['a'], (['a', ' '] : List Char) = w ++ [' ']) ∧
      wrapYStart ≤ wrapYLimit + wrapLineHeight :=
  wrapText_lines (fun _ => 0) ['a'] (['a', ' '], wrapYStart) (by decide)

/-- A concrete deterministic measurement function: 300 width units per
character. -/
def cexMeasure (s : List Char) : Nat := 300 * s.length

/-- Counterexample for C3 as stated: with a measurement of 300 units per
character, the single-word text `Hello` produces the emitted line
`Hello ` of measured width 1800, exceeding the configured maximum 1160,
so the wrap does emit a line wider than the maximum. -/
theorem wrapText_claim_cex :
    ¬ (∀ p ∈ wrapText cexMeasure ['H', 'e', 'l', 'l', 'o'],
        cexMeasure p.1 ≤ wrapMaxWidth ∧ p.2 ≤ wrapYLimit) := by
  decide

theorem wrapLoop_head (measure : List Char → Nat) :
    ∀ ws n line y, ∃ ext y0 out,
      wrapLoop measure ws n line y = (line ++ ext, y0) :: out := by
  intro ws
  induction ws with
  | nil =>
    intro n line y
    exact ⟨[], y, [], by simp [wrapLoop]⟩
  | cons w ws ih =>
    intro n line y
    simp only [wrapLoop]
    by_cases hc : wrapMaxWidth < measure (line ++ w ++ [' ']) ∧ 0 < n
    · rw [if_pos hc]
      by_cases hb : wrapYLimit < y + wrapLineHeight
      · rw [if_pos hb]
        exact ⟨[], y, [(w ++ [' '], y + wrapLineHeight)], by simp⟩
      · rw [if_neg hb]
        exact ⟨[], y, wrapLoop measure ws (n + 1) (w ++ [' ']) (y + wrapLineHeight),
          by simp⟩
    · rw [if_neg hc]
      by_cases hb : wrapYLimit < y
      · rw [if_pos hb]
        exact ⟨w ++ [' '], y, [], by simp⟩
      · rw [if_neg hb]
        obtain ⟨ext, y0, out, heq⟩ := ih (n + 1) (line ++ w ++ [' ']) y
        exact ⟨w ++ [' '] ++ ext, y0, out, by rw [heq]; simp⟩

/-- C10: for a non-empty input text the word-wrap always emits at least
one body line, and the first emitted line starts with the first word of
the text followed by a space, for every measurement function — so the
first word is placed even when it alone exceeds the maximum width, and
the residual line buffer is drawn after the loop rather than discarded. -/
theorem wrapText_first_word (measure : List Char → Nat) (text : List Char)
    (_ht : text ≠ []) :
    ∃ w0 ws0 ext y0 out, splitChars text = w0 :: ws0 ∧
      wrapText measure text = (w0 ++ [' '] ++ ext, y0) :: out := by
  obtain ⟨w0, ws0, hsplit⟩ : ∃ w0 ws0, splitChars text = w0 :: ws0 := by
    cases h : splitChars text with
    | nil => exact absurd h (splitChars_ne_nil text)
    | cons a b => exact ⟨a, b, rfl⟩
  unfold wrapText
  rw [hsplit]
  simp only [wrapLoop]
  rw [if_neg (by simp)]
  rw [if_neg (by decide)]
  rw [List.nil_append]
  obtain ⟨ext, y0, out, heq⟩ := wrapLoop_head measure ws0 1 (w0 ++ [' ']) wrapYStart
  exact ⟨w0, ws0, ext, y0, out, rfl, by rw [heq, List.append_assoc]⟩

/-- Witness for C10 at the one-character text `a` and the zero measure. -/
theorem wrapText_first_word_witness :
    ∃ w0 ws0 ext y0 out, splitChars ['a'] = w0 :: ws0 ∧
      wrapText (fun _ => 0) ['a'] = (w0 ++ [' '] ++ ext, y0) :: out :=
  wrapText_first_word (fun _ => 0) ['a'] (by decide)

/-- Observable state of one `audioBlobToVideo` operation
(src/utils/audioUtils.ts, lines 109-149): which resources are live and
whether the promise has settled.  `settled` keeps the first settlement
only, matching promise semantics (later resolve/reject calls are
no-ops). -/
structure MuxState where
  urlAllocated : Bool
  urlRevoked : Bool
  ctxOpened : Bool
  ctxClosed : Bool
  captureStarted : Bool
  recorderStarted : Bool
  playbackStarted : Bool
  settled : Option (Except String (List Nat))

/-- Settle the promise, keeping an earlier settlement if one exists. -/
def settleWith (s : MuxState) (r : Except String (List Nat)) : MuxState :=
  match s.settled with
  | some _ => s
  | none => { s with settled := some r }

/-- State after the executor body runs: the still frame is drawn, an
`Audio` element is created and `audio.src = URL.createObjectURL(audioBlob)`
allocates the temporary object URL; the handlers are registered and
nothing else has happened yet. -/
def muxInit : MuxState :=
  { urlAllocated := true, urlRevoked := false, ctxOpened := false,
    ctxClosed := false, captureStarted := false, recorderStarted := false,
    playbackStarted := false, settled := none }

/-- The `audio.oncanplaythrough` handler: captures the canvas stream,
opens the `AudioContext`, wires the media-element source into a stream
destination, builds the combined stream, starts the `MediaRecorder` and
starts playback. -/
def onCanPlayThrough (s : MuxState) : MuxState :=
  { s with
    captureStarted := true, ctxOpened := true,
    recorderStarted := true, playbackStarted := true }

/-- The `audio.onended` handler: stops the recorder and closes the
`AudioContext`. -/
def onEnded (s : MuxState) : MuxState :=
  { s with ctxClosed := true }

/-- The `recorder.onstop` handler: resolves the promise with the
collected chunks, then revokes the object URL. -/
def onRecorderStop (s : MuxState) (chunks : List Nat) : MuxState :=
  let s2 := settleWith s (Except.ok chunks)
  { s2 with urlRevoked := true }

/-- The `audio.onerror` handler: rejects the promise.  It performs no
other action — in particular it neither revokes the object URL nor closes
any context. -/
def onAudErr (s : MuxState) : MuxState :=
  settleWith s (Except.error "audio error event")

/-- One complete run of `audioBlobToVideo`.  When the audio loads, the
host fires `canplaythrough`, then (at the natural end of playback)
`ended`, then the recorder's `stop`; when loading or decoding fails it
fires `error` instead. -/
def muxRun (loads : Bool) (chunks : List Nat) : MuxState :=
  if loads then onRecorderStop (onEnded (onCanPlayThrough muxInit)) chunks
  else onAudErr muxInit

/-- C4: on the audio-error exit path `audioBlobToVideo` settles (rejects)
while the object URL allocated for the source blob is still unrevoked and
no context was ever closed — the error path releases nothing, violating
the resource discipline the spec requires on every exit path.  (On the
success path both the URL revocation and the context close do happen.) -/
theorem muxRun_error_leaks (chunks : List Nat) :
    (muxRun false chunks).settled = some (Except.error "audio error event") ∧
      (muxRun false chunks).urlAllocated = true ∧
      (muxRun false chunks).urlRevoked = false ∧
      (muxRun false chunks).ctxClosed = false ∧
      (muxRun true chunks).urlRevoked = true ∧
      (muxRun true chunks).ctxClosed = true := by
  refine ⟨rfl, rfl, rfl, rfl, rfl, rfl⟩

/-- C7: when the audio fails to load or decode, the operation settles
with a rejection and no canvas capture, recorder or playback was ever
started, and no output buffer is resolved. -/
theorem muxRun_error_rejects_before_capture (chunks : List Nat) :
    (muxRun false chunks).settled = some (Except.error "audio error event") ∧
      (muxRun false chunks).captureStarted = false ∧
      (muxRun false chunks).recorderStarted = false ∧
      (muxRun false chunks).playbackStarted = false ∧
      ∀ out, (muxRun false chunks).settled ≠ some (Except.ok out) := by
  refine ⟨rfl, rfl, rfl, rfl, fun out => by simp [muxRun, onAudErr, settleWith, muxInit]⟩

/-- Decimal digit character, code 48 + d, as produced by JS number to
string conversion for naturals. -/
def decDigit (d : Nat) : Char := Char.ofNat (48 + d)

/-- Decimal representation of a natural number as produced by the JS
template interpolation of a non-negative integer. -/
def toDec (n : Nat) : List Char :=
  if _h : n < 10 then [decDigit n]
  else toDec (n / 10) ++ [decDigit (n % 10)]

/-- One synthesis result held in session state (src/unnamed/part_000,
`Generation`); the playable URL is omitted since the export path never
reads it. -/
structure Generation where
  id : List Char
  text : List Char
  voiceId : List Char
  timestamp : Nat
  blob : List Nat

/-- Result of one video derivation: the container bytes and whether the
reported container type contains `mp4` (otherwise `webm`). -/
structure VideoBlob where
  bytes : List Nat
  isMp4 : Bool

/-- ASCII alphanumeric test matching the regex class `[a-z0-9]` with the
`i` flag used in `handleExportAll`. -/
def isAlnumCh (c : Char) : Bool :=
  (48 ≤ c.toNat && c.toNat ≤ 57) || (65 ≤ c.toNat && c.toNat ≤ 90) ||
    (97 ≤ c.toNat && c.toNat ≤ 122)

/-- `gen.voiceId.replace(/[^a-z0-9]/gi, '_')` from src/App.tsx line 103. -/
def safeName (g : Generation) : List Char :=
  g.voiceId.map (fun c => if isAlnumCh c then c else '_')

/-- The template `${i + 1}_${safeName}_${gen.id.slice(0, 8)}` from
src/App.tsx line 104. -/
def baseFilename (i : Nat) (g : Generation) : List Char :=
  toDec (i + 1) ++ '_' :: (safeName g ++ '_' :: g.id.take 8)

/-- File extension of the derived video: `mp4` when the blob type contains
`mp4`, else `webm` (src/App.tsx line 109). -/
def extOf (m : Bool) : List Char :=
  if m then "mp4".data else "webm".data

/-- Full archive path of the WAV entry for record index `i`: the
`wav_audio` folder plus `baseFilename.wav` (src/App.tsx line 106). -/
def wavName (i : Nat) (g : Generation) : List Char :=
  "wav_audio/".data ++ baseFilename i g ++ ".wav".data

/-- Full archive path of the video entry for record index `i`: the
`mp4_video` folder plus `baseFilename.ext` (src/App.tsx line 110). -/
def vidName (i : Nat) (g : Generation) (m : Bool) : List Char :=
  "mp4_video/".data ++ baseFilename i g ++ '.' :: extOf m

/-- Byte content of a text archive entry (code units of its characters). -/
def strBytes (s : List Char) : List Nat := s.map Char.toNat

/-- The manifest header built at src/App.tsx line 100; `now` stands for
the locale-formatted current date string. -/
def manifestHeader (now : List Char) : List Char :=
  "VoxGem AI Voiceover Export\nGenerated: ".data ++ now ++ "\n\n".data

/-- One manifest block appended per record (src/App.tsx line 112);
`dateStr` stands for the locale formatting of a timestamp. -/
def itemManifest (i : Nat) (g : Generation) (m : Bool)
    (dateStr : Nat → List Char) : List Char :=
  "[Item ".data ++ toDec (i + 1) ++ "]\nVoice: ".data ++ g.voiceId ++
  "\nDate: ".data ++ dateStr g.timestamp ++ "\nText: ".data ++ g.text ++
  "\nFiles: ".data ++ baseFilename i g ++ ".wav, ".data ++
  baseFilename i g ++ '.' :: extOf m ++ "\n\n".data

/-- The export loop of `handleExportAll` (src/App.tsx lines 102-117) from
record index `i`.  `vf` abstracts the awaited `audioBlobToVideo` call.
The first component records, in order, the records on which `vf` was
invoked (each at most once, stopping at the first failure); the second is
the loop outcome: on success the ordered media entries (per record, the
WAV entry then the video entry) and the accumulated manifest blocks, and
on failure the error thrown out of the loop. -/
def runExport (vf : Generation → Except Unit VideoBlob)
    (dateStr : Nat → List Char) :
    List Generation → Nat →
      List Generation × Except Unit (List (List Char × List Nat) × List Char)
  | [], _ => ([], Except.ok ([], []))
  | g :: gs, i =>
    match vf g with
    | Except.error e => ([g], Except.error e)
    | Except.ok v =>
      let r := runExport vf dateStr gs (i + 1)
      (g :: r.1,
        match r.2 with
        | Except.error e => Except.error e
        | Except.ok (es, m) =>
          Except.ok ((wavName i g, g.blob) :: (vidName i g v.isMp4, v.bytes) :: es,
            itemManifest i g v.isMp4 dateStr ++ m))

/-- Observable outcome of `handleExportAll`: the early return on an empty
history (nothing at all happens), the single aggregate failure toast with
no archive generated, or the generated archive offered for download. -/
inductive ExportResult
  | noop
  | failure
  | archive (entries : List (List Char × List Nat))

/-- Embedding of `handleExportAll` (src/App.tsx, lines 91-136): empty
history returns immediately; otherwise the loop runs and either the catch
block reports one aggregate failure (producing no archive), or the
manifest is added as a top-level entry and the archive is generated. -/
def exportAll (vf : Generation → Except Unit VideoBlob) (now : List Char)
    (dateStr : Nat → List Char) (history : List Generation) : ExportResult :=
  if history.length = 0 then ExportResult.noop
  else
    match (runExport vf dateStr history 0).2 with
    | Except.error _ => ExportResult.failure
    | Except.ok (es, m) =>
      ExportResult.archive
        (es ++ [("manifest.txt".data, strBytes (manifestHeader now ++ m))])

/-- Whether an export outcome produced an archive. -/
def isArchive : ExportResult → Bool
  | ExportResult.archive _ => true
  | _ => false

/-- Decimal digit test, codes 48 to 57. -/
def isDigitCh (c : Char) : Bool :=
  48 ≤ c.toNat && c.toNat ≤ 57

theorem decDigit_digit (d : Nat) (h : d < 10) : isDigitCh (decDigit d) = true := by
  have hall : ∀ x, x < 10 → isDigitCh (decDigit x) = true := by decide
  exact hall d h

theorem decDigit_inj (a b : Nat) (ha : a < 10) (hb : b < 10)
    (h : decDigit a = decDigit b) : a = b := by
  have hall : ∀ x, x < 10 → ∀ y, y < 10 → decDigit x = decDigit y → x = y := by decide
  exact hall a ha b hb h

theorem toDec_digits (n : Nat) : ∀ c ∈ toDec n, isDigitCh c = true := by
  induction n using Nat.strong_induction_on with
  | _ n ih =>
    rw [toDec]
    by_cases h : n < 10
    · rw [dif_pos h]
      intro c hc
      rw [List.mem_singleton.mp hc]
      exact decDigit_digit n h
    · rw [dif_neg h]
      intro c hc
      rcases List.mem_append.mp hc with hc | hc
      · exact ih (n / 10) (by omega) c hc
      · rw [List.mem_singleton.mp hc]
        exact decDigit_digit (n % 10) (by omega)

theorem toDec_ne_nil (n : Nat) : toDec n ≠ [] := by
  rw [toDec]
  by_cases h : n < 10
  · rw [dif_pos h]; simp
  · rw [dif_neg h]; simp

theorem toDec_small {n : Nat} (h : n < 10) : toDec n = [decDigit n] := by
  rw [toDec, dif_pos h]

theorem toDec_large {n : Nat} (h : ¬ n < 10) :
    toDec n = toDec (n / 10) ++ [decDigit (n % 10)] := by
  rw [toDec, dif_neg h]

theorem toDec_inj (m : Nat) : ∀ n, toDec m = toDec n → m = n := by
  induction m using Nat.strong_induction_on with
  | _ m ih =>
    intro n heq
    by_cases hm : m < 10 <;> by_cases hn : n < 10
    · rw [toDec_small hm, toDec_small hn] at heq
      simp only [List.cons.injEq, and_true] at heq
      exact decDigit_inj m n hm hn heq
    · rw [toDec_small hm, toDec_large hn] at heq
      have hlen := congrArg List.length heq
      have h1 : (toDec (n / 10)).length ≠ 0 := by
        simp only [ne_eq, List.length_eq_zero]
        exact toDec_ne_nil (n / 10)
      simp only [List.length_singleton, List.length_append] at hlen
      omega
    · rw [toDec_large hm, toDec_small hn] at heq
      have hlen := congrArg List.length heq
      have h1 : (toDec (m / 10)).length ≠ 0 := by
        simp only [ne_eq, List.length_eq_zero]
        exact toDec_ne_nil (m / 10)
      simp only [List.length_singleton, List.length_append] at hlen
      omega
    · rw [toDec_large hm, toDec_large hn] at heq
      have := List.append_inj' heq (by rfl)
      rcases this with ⟨hpre, hlast⟩
      have hd : m % 10 = n % 10 :=
        decDigit_inj _ _ (by omega) (by omega) (by
          simp only [List.cons.injEq, and_true] at hlast
          exact hlast)
      have hq : m / 10 = n / 10 := ih (m / 10) (by omega) (n / 10) hpre
      omega

theorem digitsUnderscore_inj (d1 : List Char) :
    ∀ (r1 : List Char) (d2 : List Char) (r2 : List Char),
      (∀ c ∈ d1, isDigitCh c = true) → (∀ c ∈ d2, isDigitCh c = true) →
      d1 ++ '_' :: r1 = d2 ++ '_' :: r2 → d1 = d2 ∧ r1 = r2 := by
  induction d1 with
  | nil =>
    intro r1 d2 r2 _ h2 heq
    cases d2 with
    | nil =>
      simp only [List.nil_append, List.cons.injEq, true_and] at heq
      exact ⟨rfl, heq⟩
    | cons c d2' =>
      simp only [List.nil_append, List.cons_append, List.cons.injEq] at heq
      have := h2 c (by simp)
      rw [← heq.1] at this
      exact absurd this (by decide)
  | cons c d1' ih =>
    intro r1 d2 r2 h1 h2 heq
    cases d2 with
    | nil =>
      simp only [List.cons_append, List.nil_append, List.cons.injEq] at heq
      have := h1 c (by simp)
      rw [heq.1] at this
      exact absurd this (by decide)
    | cons c2 d2' =>
      simp only [List.cons_append, List.cons.injEq] at heq
      obtain ⟨hpre, hrest⟩ := ih r1 d2' r2 (fun x hx => h1 x (by simp [hx]))
        (fun x hx => h2 x (by simp [hx])) heq.2
      exact ⟨by rw [heq.1, hpre], hrest⟩

theorem baseFilename_split (i : Nat) (g : Generation) (suffix : List Char) :
    baseFilename i g ++ suffix =
      toDec (i + 1) ++ '_' :: (safeName g ++ '_' :: g.id.take 8 ++ suffix) := by
  simp [baseFilename, List.append_assoc]

theorem wavName_inj_idx {i j : Nat} {g g2 : Generation}
    (h : wavName i g = wavName j g2) : i = j := by
  unfold wavName at h
  rw [List.append_assoc, List.append_assoc] at h
  have h2 := List.append_cancel_left h
  rw [baseFilename_split, baseFilename_split] at h2
  have := digitsUnderscore_inj (toDec (i + 1)) _ (toDec (j + 1)) _
    (toDec_digits (i + 1)) (toDec_digits (j + 1)) h2
  have := toDec_inj (i + 1) (j + 1) this.1
  omega

theorem vidName_inj_idx {i j : Nat} {g g2 : Generation} {m m2 : Bool}
    (h : vidName i g m = vidName j g2 m2) : i = j := by
  unfold vidName at h
  rw [List.append_assoc, List.append_assoc] at h
  have h2 := List.append_cancel_left h
  rw [baseFilename_split, baseFilename_split] at h2
  have := digitsUnderscore_inj (toDec (i + 1)) _ (toDec (j + 1)) _
    (toDec_digits (i + 1)) (toDec_digits (j + 1)) h2
  have := toDec_inj (i + 1) (j + 1) this.1
  omega

theorem wavName_ne_vidName (i j : Nat) (g g2 : Generation) (m : Bool) :
    wavName i g ≠ vidName j g2 m := by
  intro h
  have h0 : (wavName i g).getD 0 ' ' = 'w' := rfl
  have h1 : (vidName j g2 m).getD 0 ' ' = 'm' := rfl
  rw [h, h1] at h0
  exact absurd h0 (by decide)

theorem wavName_ne_manifest (i : Nat) (g : Generation) :
    wavName i g ≠ "manifest.txt".data := by
  intro h
  have h0 : (wavName i g).getD 0 ' ' = 'w' := rfl
  have h1 : ("manifest.txt".data : List Char).getD 0 ' ' = 'm' := rfl
  rw [h, h1] at h0
  exact absurd h0 (by decide)

theorem vidName_ne_manifest (i : Nat) (g : Generation) (m : Bool) :
    vidName i g m ≠ "manifest.txt".data := by
  intro h
  have h0 : (vidName i g m).getD 1 ' ' = 'p' := rfl
  have h1 : ("manifest.txt".data : List Char).getD 1 ' ' = 'a' := rfl
  rw [h, h1] at h0
  exact absurd h0 (by decide)

/-- Container flag the export loop sees for a record: the `isMp4` flag of
the derived video, or `false` when the derivation fails (not used on
failing runs). -/
def extFromVf (vf : Generation → Except Unit VideoBlob) (g : Generation) : Bool :=
  match vf g with
  | Except.ok v => v.isMp4
  | Except.error _ => false

/-- The entry names the export loop produces, in order, starting at
record index `i`. -/
def namesList (vf : Generation → Except Unit VideoBlob) :
    List Generation → Nat → List (List Char)
  | [], _ => []
  | g :: gs, i =>
      wavName i g :: vidName i g (extFromVf vf g) :: namesList vf gs (i + 1)

theorem namesList_mem (vf : Generation → Except Unit VideoBlob)
    (gs : List Generation) :
    ∀ i nm, nm ∈ namesList vf gs i →
      ∃ j g, i ≤ j ∧ (nm = wavName j g ∨ ∃ b, nm = vidName j g b) := by
  induction gs with
  | nil => intro i nm h; simp [namesList] at h
  | cons g gs ih =>
    intro i nm h
    simp only [namesList, List.mem_cons] at h
    rcases h with rfl | rfl | h
    · exact ⟨i, g, le_refl i, Or.inl rfl⟩
    · exact ⟨i, g, le_refl i, Or.inr ⟨extFromVf vf g, rfl⟩⟩
    · obtain ⟨j, g2, hij, hj⟩ := ih (i + 1) nm h
      exact ⟨j, g2, by omega, hj⟩

theorem namesList_nodup (vf : Generation → Except Unit VideoBlob)
    (gs : List Generation) :
    ∀ i, (namesList vf gs i ++ ["manifest.txt".data]).Nodup := by
  induction gs with
  | nil => intro i; simp [namesList]
  | cons g gs ih =>
    intro i
    simp only [namesList, List.cons_append]
    rw [List.nodup_cons, List.nodup_cons]
    refine ⟨?_, ?_, ih (i + 1)⟩
    · intro hmem
      rcases List.mem_cons.mp hmem with heq | hmem
      · exact wavName_ne_vidName i i g g (extFromVf vf g) heq
      · rcases List.mem_append.mp hmem with hmem | hmem
        · obtain ⟨j, g2, hij, hj | ⟨b, hj⟩⟩ := namesList_mem vf gs (i + 1) _ hmem
          · have := wavName_inj_idx hj
            omega
          · exact wavName_ne_vidName i j g g2 b hj
        · exact wavName_ne_manifest i g (List.mem_singleton.mp hmem)
    · intro hmem
      rcases List.mem_append.mp hmem with hmem | hmem
      · obtain ⟨j, g2, hij, hj | ⟨b, hj⟩⟩ := namesList_mem vf gs (i + 1) _ hmem
        · exact wavName_ne_vidName j i g2 g (extFromVf vf g) hj.symm
        · have := vidName_inj_idx hj
          omega
      · exact vidName_ne_manifest i g (extFromVf vf g) (List.mem_singleton.mp hmem)

theorem take10_wavName (i : Nat) (g : Generation) :
    (wavName i g).take 10 = "wav_audio/".data := rfl

theorem take10_vidName (i : Nat) (g : Generation) (m : Bool) :
    (vidName i g m).take 10 = "mp4_video/".data := rfl

theorem namesList_count_wav (vf : Generation → Except Unit VideoBlob)
    (gs : List Generation) :
    ∀ i, ((namesList vf gs i).filter
        (fun nm => nm.take 10 == "wav_audio/".data)).length = gs.length := by
  induction gs with
  | nil => intro i; simp [namesList]
  | cons g gs ih =>
    intro i
    have hfalse : (("mp4_video/".data : List Char) == "wav_audio/".data) = false := by
      decide
    simp only [namesList, List.filter_cons, take10_wavName, take10_vidName, hfalse]
    simp [ih (i + 1)]

theorem namesList_count_vid (vf : Generation → Except Unit VideoBlob)
    (gs : List Generation) :
    ∀ i, ((namesList vf gs i).filter
        (fun nm => nm.take 10 == "mp4_video/".data)).length = gs.length := by
  induction gs with
  | nil => intro i; simp [namesList]
  | cons g gs ih =>
    intro i
    have hfalse : (("wav_audio/".data : List Char) == "mp4_video/".data) = false := by
      decide
    simp only [namesList, List.filter_cons, take10_wavName, take10_vidName, hfalse]
    simp [ih (i + 1)]

theorem runExport_ok (vf : Generation → Except Unit VideoBlob)
    (dateStr : Nat → List Char) (gs : List Generation) :
    ∀ i, (∀ g ∈ gs, ∃ v, vf g = Except.ok v) →
      ∃ es m, (runExport vf dateStr gs i).2 = Except.ok (es, m) ∧
        es.map Prod.fst = namesList vf gs i ∧ es.length = 2 * gs.length := by
  induction gs with
  | nil => intro i _; exact ⟨[], [], rfl, rfl, rfl⟩
  | cons g gs ih =>
    intro i hall
    obtain ⟨v, hv⟩ := hall g (by simp)
    obtain ⟨es, m, h2, hmap, hlen⟩ := ih (i + 1) (fun x hx => hall x (by simp [hx]))
    refine ⟨(wavName i g, g.blob) :: (vidName i g v.isMp4, v.bytes) :: es,
      itemManifest i g v.isMp4 dateStr ++ m, ?_, ?_, ?_⟩
    · simp only [runExport, hv, h2]
    · simp only [List.map_cons, namesList]
      rw [hmap]
      have hext : extFromVf vf g = v.isMp4 := by
        unfold extFromVf
        rw [hv]
      rw [hext]
    · simp only [List.length_cons]
      omega

theorem runExport_trace (vf : Generation → Except Unit VideoBlob)
    (dateStr : Nat → List Char) (gs : List Generation) :
    ∀ i, ∃ k, (runExport vf dateStr gs i).1 = gs.take k := by
  induction gs with
  | nil => intro i; exact ⟨0, rfl⟩
  | cons g gs ih =>
    intro i
    cases hv : vf g with
    | error e => exact ⟨1, by simp [runExport, hv]⟩
    | ok v =>
      obtain ⟨k, hk⟩ := ih (i + 1)
      exact ⟨k + 1, by simp only [runExport, hv, List.take_succ_cons, hk]⟩

theorem runExport_err (vf : Generation → Except Unit VideoBlob)
    (dateStr : Nat → List Char) (gs : List Generation) :
    ∀ i, (∃ g ∈ gs, vf g = Except.error ()) →
      (runExport vf dateStr gs i).2 = Except.error () := by
  induction gs with
  | nil => intro i h; simp at h
  | cons g gs ih =>
    intro i h
    cases hv : vf g with
    | error e => simp [runExport, hv]
    | ok v =>
      obtain ⟨x, hx, hxe⟩ := h
      rcases List.mem_cons.mp hx with rfl | hx
      · rw [hv] at hxe
        exact absurd hxe (by simp)
      · have he := ih (i + 1) ⟨x, hx, hxe⟩
        simp only [runExport, hv, he]

/-- C6: whenever the video derivation of any record in the history fails,
the whole export aborts with the single aggregate failure outcome — no
archive, partial or otherwise, is produced or offered for download — and
the derivation trace is a prefix of the history: each record was attempted
at most once in order up to the first failure, with no retries. -/
theorem exportAll_aborts (vf : Generation → Except Unit VideoBlob)
    (now : List Char) (dateStr : Nat → List Char) (history : List Generation)
    (h : ∃ g ∈ history, vf g = Except.error ()) :
    exportAll vf now dateStr history = ExportResult.failure ∧
      ∃ k, (runExport vf dateStr history 0).1 = history.take k := by
  have he := runExport_err vf dateStr history 0 h
  obtain ⟨g0, hg0, _⟩ := h
  have hne : ¬ history.length = 0 := by
    cases history with
    | nil => simp at hg0
    | cons a b => simp
  refine ⟨?_, runExport_trace vf dateStr history 0⟩
  unfold exportAll
  rw [if_neg hne, he]

/-- A concrete generation record used for the export witnesses. -/
def gWitness : Generation :=
  { id := [], text := [], voiceId := [], timestamp := 0, blob := [] }

/-- A video derivation that always fails. -/
def vfFail : Generation → Except Unit VideoBlob := fun _ => Except.error ()

/-- A video derivation that always succeeds with an mp4 container. -/
def vfOk : Generation → Except Unit VideoBlob :=
  fun _ => Except.ok { bytes := [], isMp4 := true }

/-- Witness for C6 at a single-record history whose derivation fails. -/
theorem exportAll_aborts_witness :
    exportAll vfFail [] (fun _ => []) [gWitness] = ExportResult.failure ∧
      ∃ k, (runExport vfFail (fun _ => []) [gWitness] 0).1 = [gWitness].take k :=
  exportAll_aborts vfFail [] (fun _ => []) [gWitness] ⟨gWitness, by simp, rfl⟩

/-- C2 (amended): exporting an empty history is a no-op — no archive at
all is produced, not even a manifest-only one (the code returns before any
packaging; moreover the manifest is never empty, it always carries a
header).  For a non-empty history whose video derivations all succeed, the
archive holds exactly `2k` media entries (per record one WAV entry in the
`wav_audio` folder and one video entry in the `mp4_video` folder) plus one
final manifest entry, and all entry names are pairwise distinct. -/
theorem exportAll_entries (vf : Generation → Except Unit VideoBlob)
    (now : List Char) (dateStr : Nat → List Char) (history : List Generation)
    (hall : ∀ g ∈ history, ∃ v, vf g = Except.ok v) :
    exportAll vf now dateStr [] = ExportResult.noop ∧
    (history ≠ [] → ∃ es,
      exportAll vf now dateStr history = ExportResult.archive es ∧
      es.length = 2 * history.length + 1 ∧
      (es.map Prod.fst).Nodup ∧
      (es.map Prod.fst).getLast? = some ("manifest.txt".data) ∧
      ((es.map Prod.fst).filter
        (fun nm => nm.take 10 == "wav_audio/".data)).length = history.length ∧
      ((es.map Prod.fst).filter
        (fun nm => nm.take 10 == "mp4_video/".data)).length = history.length) := by
  refine ⟨rfl, fun hne => ?_⟩
  obtain ⟨es, m, h2, hmap, hlen⟩ := runExport_ok vf dateStr history 0 hall
  have hlist : es.map Prod.fst ++ [("manifest.txt".data : List Char)] =
      (es ++ [("manifest.txt".data, strBytes (manifestHeader now ++ m))]).map Prod.fst := by
    simp
  refine ⟨es ++ [("manifest.txt".data, strBytes (manifestHeader now ++ m))],
    ?_, ?_, ?_, ?_, ?_, ?_⟩
  · unfold exportAll
    rw [if_neg (by simpa using hne), h2]
  · simp [hlen]
  · rw [← hlist, hmap]
    exact namesList_nodup vf history 0
  · rw [← hlist]
    exact List.getLast?_concat _
  · rw [← hlist, hmap, List.filter_append]
    have hman : (List.filter (fun nm => nm.take 10 == "wav_audio/".data)
        [("manifest.txt".data : List Char)]) = [] := by decide
    rw [hman, List.length_append, namesList_count_wav vf history 0]
    simp
  · rw [← hlist, hmap, List.filter_append]
    have hman : (List.filter (fun nm => nm.take 10 == "mp4_video/".data)
        [("manifest.txt".data : List Char)]) = [] := by decide
    rw [hman, List.length_append, namesList_count_vid vf history 0]
    simp

/-- Witness for C2 (amended) at a two-record history (duplicate records,
showing the index prefix alone keeps names unique). -/
theorem exportAll_entries_witness :
    exportAll vfOk [] (fun _ => []) [] = ExportResult.noop ∧
    (([gWitness, gWitness] : List Generation) ≠ [] → ∃ es,
      exportAll vfOk [] (fun _ => []) [gWitness, gWitness] = ExportResult.archive es ∧
      es.length = 2 * ([gWitness, gWitness] : List Generation).length + 1 ∧
      (es.map Prod.fst).Nodup ∧
      (es.map Prod.fst).getLast? = some ("manifest.txt".data) ∧
      ((es.map Prod.fst).filter
        (fun nm => nm.take 10 == "wav_audio/".data)).length =
          ([gWitness, gWitness] : List Generation).length ∧
      ((es.map Prod.fst).filter
        (fun nm => nm.take 10 == "mp4_video/".data)).length =
          ([gWitness, gWitness] : List Generation).length) :=
  exportAll_entries vfOk [] (fun _ => []) [gWitness, gWitness]
    (fun _ _ => ⟨{ bytes := [], isMp4 := true }, rfl⟩)

/-- Counterexample for C2 as stated: packaging zero records does not
produce an archive containing only an empty manifest — the export returns
immediately and produces no archive at all. -/
theorem exportAll_zero_records_cex :
    isArchive (exportAll vfOk [] (fun _ => []) []) = false := rfl

end VoxGem
